import Mathlib

/-
Verification of the AsyncStream combinator library (src/index.ts).

Modelling conventions (shallow embedding):
* A finite async source is a `List α` of the items it will yield, in order;
  one pull returns the head (done = false) or reports exhaustion (done = true)
  and the residual source is the remaining list.
* Each combinator method is split into its construction phase and its
  consumption phase, mirroring the TypeScript code: the method body runs
  synchronously at call time (argument validation only; async generator
  bodies are lazy and perform no pull until first consumed), so the
  constructor is a pure function of the numeric argument returning
  `Except String stage` with the exact error message thrown by the code.
  The generator body becomes a recursive run function over the upstream list.
* JavaScript numbers passed as `packageSize` are modelled as `ℚ` where the
  distinction integer versus non-integer matters (`pack`, `repack`
  validation); counters and lengths are `ℕ`, signed arguments are `ℤ`.
* Mid-stream TypeError throws (in `flat` and `repack`) are modelled by the
  run function returning the list of items emitted before the throw together
  with `Option String`, the error raised at the offending pull (if any).
-/

namespace AsyncStream

variable {α : Type}

/-- One upstream item as seen by `flat` and `repack`: either an array of
elements (Array.isArray true) or any non-array value. -/
inductive Item (α : Type) where
  | arr : List α → Item α
  | nonArr : Item α
deriving DecidableEq

/-- Result of deciding what `take(n)` returns: the very same Stream object
(the `n === 0` early return in the code) or a new wrapping stage. -/
inductive TakeResult where
  | sameStream : TakeResult
  | newStage : ℕ → TakeResult
deriving DecidableEq

/-- Construction phase of `pack(packageSize)` (src/index.ts:76-81): throws a
RangeError when `packageSize <= 0`, otherwise returns the stage (carrying the
validated size). No pull happens at construction. -/
def pack (packageSize : ℚ) : Except String ℚ :=
  if packageSize ≤ 0 then .error "packageSize must be a positive integer."
  else .ok packageSize

/-- Generator body of `pack` (src/index.ts:83-98): push each upstream item
onto the buffer, emit the buffer exactly when its length equals
`packageSize`, and after exhaustion emit a non-empty leftover buffer. The
length comparison is the JavaScript `===` between the integer length and the
number `packageSize`, hence the cast to `ℚ`. -/
def packRun (packageSize : ℚ) : List α → List α → List (List α)
  | buffer, [] => if 0 < buffer.length then [buffer] else []
  | buffer, x :: xs =>
    if ((buffer ++ [x]).length : ℚ) = packageSize then
      (buffer ++ [x]) :: packRun packageSize [] xs
    else
      packRun packageSize (buffer ++ [x]) xs

/-- Construction phase of `repack(packageSize)` (src/index.ts:114-119): same
validation and error message as `pack`. -/
def repack (packageSize : ℚ) : Except String ℚ :=
  if packageSize ≤ 0 then .error "packageSize must be a positive integer."
  else .ok packageSize

/-- The inner `while (buffer.length >= packageSize)` loop of `repack`
(src/index.ts:134-137): repeatedly emit `buffer.slice(0, packageSize)` and
keep `buffer.slice(packageSize)`; returns the emitted full groups and the
final short buffer. Modelled for integer sizes (every claim exercises
integer sizes). The `0 < packageSize` conjunct records the termination
condition of the while loop; with `packageSize = 0` the JavaScript loop
would not terminate, and the constructor rejects that argument. -/
def repackSlices (packageSize : ℕ) (buffer : List α) : List (List α) × List α :=
  if _h : 0 < packageSize ∧ packageSize ≤ buffer.length then
    let r := repackSlices packageSize (buffer.drop packageSize)
    (buffer.take packageSize :: r.1, r.2)
  else ([], buffer)
termination_by buffer.length
decreasing_by simp only [List.length_drop]; omega

/-- Generator body of `repack` (src/index.ts:121-143): for each upstream
item, throw a TypeError if it is not an array, otherwise append its elements
to the buffer and emit full groups greedily; after exhaustion emit a
non-empty leftover buffer. The returned `Option String` is the error raised
at the offending pull, with everything emitted before it. -/
def repackLoop (packageSize : ℕ) : List α → List (Item α) → List (List α) × Option String
  | buffer, [] => (if 0 < buffer.length then [buffer] else [], none)
  | _, .nonArr :: _ => ([], some "Input async generator must yield arrays for repack.")
  | buffer, .arr page :: rest =>
    let s := repackSlices packageSize (buffer ++ page)
    let r := repackLoop packageSize s.2 rest
    (s.1 ++ r.1, r.2)

/-- Generator body of `flat()` (src/index.ts:157-171): for each upstream
item, throw a TypeError if it is not an array, otherwise yield its elements
one by one. The returned `Option String` is the error raised at the
offending pull, with everything emitted before it. -/
def flatRun : List (Item α) → List α × Option String
  | [] => ([], none)
  | .nonArr :: _ => ([], some "Input async generator must yield arrays for flattening.")
  | .arr page :: rest =>
    let r := flatRun rest
    (page ++ r.1, r.2)

/-- Generator body of `filter(predicate)` (src/index.ts:208-216): yield the
items on which the predicate holds, incrementing the index for every
upstream item observed. Returns the emitted items together with the list of
(item, index) arguments the predicate was called with, in call order. -/
def filterRun (p : α → ℕ → Bool) : ℕ → List α → List α × List (α × ℕ)
  | _, [] => ([], [])
  | i, x :: xs =>
    let r := filterRun p (i + 1) xs
    (if p x i then x :: r.1 else r.1, (x, i) :: r.2)

/-- Construction phase of `skip(n)` (src/index.ts:286-291): throws a
RangeError when `n < 0`; the stage keeps the count as a natural number. -/
def skip (n : ℤ) : Except String ℕ :=
  if n < 0 then .error "n must be a non-negative integer." else .ok n.toNat

/-- Generator body of `skip` (src/index.ts:293-309): pull and discard until
`count` reaches `n`, returning early (emitting nothing) if a discarded pull
reports done; then yield every remaining item. -/
def skipRun : ℕ → List α → List α
  | 0, s => s
  | _ + 1, [] => []
  | n + 1, _ :: xs => skipRun n xs

/-- Construction phase of `take(n)` (src/index.ts:341-348): throws a
RangeError when `n < 0`; when `n === 0` it returns the same Stream object
(`return self`), otherwise a new stage. No pull happens at construction. -/
def take (n : ℤ) : Except String TakeResult :=
  if n < 0 then .error "n must be a non-negative integer."
  else if n = 0 then .ok .sameStream
  else .ok (.newStage n.toNat)

/-- Generator body of the `take` stage for `n > 0` (src/index.ts:350-358):
at most `n` pulls that yield, breaking on a done pull. Returns the emitted
items, the residual upstream source, and the number of pulls issued on the
upstream (the done pull, when it happens, counts). -/
def takeRun : ℕ → List α → List α × List α × ℕ
  | 0, s => ([], s, 0)
  | _ + 1, [] => ([], [], 1)
  | n + 1, x :: xs =>
    let r := takeRun n xs
    (x :: r.1, r.2.1, r.2.2 + 1)

/-- Fully consuming the stream returned by `take(n)`: for `.sameStream` the
returned stream is the upstream itself, so consumption yields every
remaining upstream item; for a new stage it yields what the stage emits. -/
def takeCollect : TakeResult → List α → List α
  | .sameStream, s => s
  | .newStage n, s => (takeRun n s).1

/-- Construction phase of `takeLast(n)` (src/index.ts:370-375): throws a
RangeError when `n <= 0`. -/
def takeLast (n : ℤ) : Except String ℕ :=
  if n ≤ 0 then .error "n must be a positive integer." else .ok n.toNat

/-- The consuming loop of `takeLast` (src/index.ts:378-384): push each item,
and when the window exceeds `n` items drop the oldest (`results.shift()`).
Returns the window contents after upstream exhaustion. -/
def takeLastLoop (n : ℕ) : List α → List α → List α
  | results, [] => results
  | results, x :: xs =>
    takeLastLoop n
      (if n < (results ++ [x]).length then (results ++ [x]).tail else results ++ [x]) xs

/-- Generator body of `takeLast` (src/index.ts:377-389): run the window loop
from an empty window, then yield the window contents in order. -/
def takeLastRun (n : ℕ) (s : List α) : List α := takeLastLoop n [] s

/-- Proof-side regrouping function: cut a list into consecutive chunks of
`n` items, the last chunk possibly shorter. Used only to characterise
`packRun`. -/
def chunks (n : ℕ) : List α → List (List α)
  | [] => []
  | x :: xs => (x :: xs.take (n - 1)) :: chunks n (xs.drop (n - 1))
termination_by l => l.length
decreasing_by simp only [List.length_drop, List.length_cons]; omega

/-- Concatenating the groups emitted by the pack generator recovers the
buffer followed by the remaining source items. -/
theorem packRun_flatten (q : ℚ) (buffer s : List α) :
    (packRun q buffer s).flatten = buffer ++ s := by
  induction s generalizing buffer with
  | nil =>
    simp only [packRun]
    split
    · simp
    · next h =>
      have hb : buffer = [] := by
        cases buffer with
        | nil => rfl
        | cons b bs => simp at h
      simp [hb]
  | cons x xs ih =>
    simp only [packRun]
    split
    · simp [ih]
    · simp [ih]

theorem chunks_ne_nil {n : ℕ} {s : List α} (h : s ≠ []) : chunks n s ≠ [] := by
  cases s with
  | nil => exact absurd rfl h
  | cons x xs => simp [chunks]

theorem chunks_cons_eq {n : ℕ} (hn : 0 < n) (s : List α) (h : s ≠ []) :
    chunks n s = s.take n :: chunks n (s.drop n) := by
  cases s with
  | nil => exact absurd rfl h
  | cons x xs =>
    obtain ⟨m, rfl⟩ : ∃ m, n = m + 1 := ⟨n - 1, by omega⟩
    simp [chunks, List.take_succ_cons, List.drop_succ_cons]

/-- With a positive integer package size, the pack generator cuts its input
into consecutive chunks of that size. -/
theorem packRun_eq_chunks {n : ℕ} (hn : 0 < n) (s : List α) :
    ∀ buffer : List α, buffer.length < n → packRun (n : ℚ) buffer s = chunks n (buffer ++ s) := by
  induction s with
  | nil =>
    intro buffer hb
    simp only [packRun, List.append_nil]
    split
    · next h =>
      cases buffer with
      | nil => simp at h
      | cons b bs =>
        have h1 : bs.take (n - 1) = bs := List.take_of_length_le (by simp at hb; omega)
        have h2 : bs.drop (n - 1) = [] := by
          rw [List.drop_eq_nil_iff]
          simp at hb; omega
        simp [chunks, h1, h2]
    · next h =>
      cases buffer with
      | nil => simp [chunks]
      | cons b bs => simp at h
  | cons x xs ih =>
    intro buffer hb
    simp only [packRun]
    split
    · next hcond =>
      have hlen : (buffer ++ [x]).length = n := by exact_mod_cast hcond
      have heq : buffer ++ x :: xs = (buffer ++ [x]) ++ xs := by simp
      rw [heq, chunks_cons_eq hn ((buffer ++ [x]) ++ xs) (by simp),
        List.take_left' hlen, List.drop_left' hlen, ih [] (by simpa using hn)]
      simp
    · next hcond =>
      have hlen : (buffer ++ [x]).length ≠ n := fun hc => hcond (by exact_mod_cast hc)
      have hlt : (buffer ++ [x]).length < n := by simp at hlen ⊢; omega
      rw [ih (buffer ++ [x]) hlt]
      simp

theorem chunks_length {n : ℕ} (hn : 0 < n) (s : List α) :
    (chunks n s).length = (s.length + n - 1) / n := by
  induction s using chunks.induct n with
  | case1 =>
    simp only [chunks, List.length_nil]
    exact (Nat.div_eq_of_lt (by omega)).symm
  | case2 x xs ih =>
    simp only [chunks, List.length_cons, ih, List.length_drop]
    by_cases h : n - 1 ≤ xs.length
    · have h1 : xs.length - (n - 1) + n - 1 = xs.length := by omega
      have h2 : xs.length + 1 + n - 1 = xs.length + n := by omega
      rw [h1, h2, Nat.add_div_right _ hn]
    · have h1 : xs.length - (n - 1) + n - 1 = n - 1 := by omega
      have h2 : xs.length + 1 + n - 1 = xs.length + n := by omega
      rw [h1, h2, Nat.add_div_right _ hn, Nat.div_eq_of_lt (by omega),
        Nat.div_eq_of_lt (by omega)]

/-- Every chunk except possibly the last has exactly `n` elements. -/
theorem chunks_dropLast_length {n : ℕ} (hn : 0 < n) (s : List α) :
    ∀ g ∈ (chunks n s).dropLast, g.length = n := by
  induction s using chunks.induct n with
  | case1 => simp [chunks]
  | case2 x xs ih =>
    by_cases hr : xs.drop (n - 1) = []
    · simp [chunks, hr]
    · intro g hg
      simp only [chunks] at hg
      rw [List.dropLast_cons_of_ne_nil (chunks_ne_nil hr)] at hg
      rcases List.mem_cons.mp hg with h | h
      · subst h
        have hlt : n - 1 < xs.length := by
          by_contra hc
          exact hr (by rw [List.drop_eq_nil_iff]; omega)
        simp only [List.length_cons, List.length_take]
        omega
      · exact ih g h

/-- The last chunk has `s.length % n` elements, or `n` when `n` divides the
input length. -/
theorem chunks_getLast_length {n : ℕ} (hn : 0 < n) (s : List α) (g : List α)
    (hg : (chunks n s).getLast? = some g) :
    g.length = if n ∣ s.length then n else s.length % n := by
  induction s using chunks.induct n with
  | case1 => simp [chunks] at hg
  | case2 x xs ih =>
    by_cases hr : xs.drop (n - 1) = []
    · have hxs : xs.length ≤ n - 1 := List.drop_eq_nil_iff.mp hr
      simp only [chunks, hr, List.getLast?_singleton] at hg
      have hgl : g = x :: xs.take (n - 1) := by
        simpa [chunks] using hg.symm
      subst hgl
      have hglen : (x :: xs.take (n - 1)).length = xs.length + 1 := by
        simp only [List.length_cons, List.length_take]
        omega
      rw [hglen]
      simp only [List.length_cons]
      split
      · next hd =>
        have h1 : n ≤ xs.length + 1 := Nat.le_of_dvd (by omega) hd
        omega
      · next hd =>
        have h2 : xs.length + 1 ≠ n := fun h => hd (h ▸ dvd_refl n)
        rw [Nat.mod_eq_of_lt (by omega)]
    · rcases hl : chunks n (xs.drop (n - 1)) with _ | ⟨c, cs⟩
      · exact absurd hl (chunks_ne_nil hr)
      · simp only [chunks, hl, List.getLast?_cons_cons] at hg
        rw [← hl] at hg
        have hL : (x :: xs).length = (xs.drop (n - 1)).length + n := by
          have hlt : n - 1 < xs.length := by
            by_contra hc
            exact hr (by rw [List.drop_eq_nil_iff]; omega)
          simp only [List.length_cons, List.length_drop]
          omega
        rw [hL, Nat.add_mod_right]
        by_cases hd : n ∣ (xs.drop (n - 1)).length
        · rw [if_pos (dvd_add hd (dvd_refl n))]
          have hthis := ih hg
          rw [if_pos hd] at hthis
          exact hthis
        · have hnd : ¬ n ∣ (xs.drop (n - 1)).length + n := fun hc =>
            hd ((Nat.dvd_add_right (dvd_refl n)).mp (Nat.add_comm (xs.drop (n - 1)).length n ▸ hc))
          rw [if_neg hnd]
          have hthis := ih hg
          rw [if_neg hd] at hthis
          exact hthis

/-- On an all-array upstream, `flat` emits the concatenation of the pages
and raises no error. -/
theorem flatRun_map_arr (pages : List (List α)) :
    flatRun (pages.map Item.arr) = (pages.flatten, none) := by
  induction pages with
  | nil => simp [flatRun]
  | cons p ps ih => simp [flatRun, ih]

theorem pack_pos_ok {n : ℕ} (hn : 0 < n) : pack (n : ℚ) = .ok (n : ℚ) := by
  simp [pack, not_le.mpr (show (0 : ℚ) < n by exact_mod_cast hn)]

theorem packRun_nil_buffer_eq_chunks {n : ℕ} (hn : 0 < n) (s : List α) :
    packRun (n : ℚ) [] s = chunks n s := by
  simpa using packRun_eq_chunks hn s [] (by simpa using hn)

/-- C1: for every positive integer n and every finite source S, the call
`pack(n)` succeeds and piping the emitted groups through `flat()` collects
exactly the original sequence S, with no error (round-trip law
flat(pack(n, S)) == S). -/
theorem c1_pack_then_flat_roundtrip (n : ℕ) (hn : 0 < n) (s : List α) :
    pack (n : ℚ) = .ok (n : ℚ) ∧
    flatRun ((packRun (n : ℚ) [] s).map Item.arr) = (s, none) := by
  refine ⟨pack_pos_ok hn, ?_⟩
  rw [flatRun_map_arr]
  rw [show (packRun (n : ℚ) [] s).flatten = s from by simpa using packRun_flatten (n : ℚ) [] s]

/-- Witness for C1 at n = 2 and S = [1, 2, 3]. -/
theorem c1_pack_then_flat_roundtrip_witness : 0 < 2 ∧
    (pack ((2 : ℕ) : ℚ) = .ok ((2 : ℕ) : ℚ) ∧
      flatRun ((packRun ((2 : ℕ) : ℚ) [] [1, 2, 3]).map Item.arr) = ([1, 2, 3], none)) :=
  ⟨by decide, c1_pack_then_flat_roundtrip 2 (by decide) [1, 2, 3]⟩

/-- C2: for every positive integer groupSize and source of length L,
`pack(groupSize)` emits ceil(L / groupSize) groups in arrival order (their
concatenation is the source), every group except possibly the last has
length groupSize, the last group has length L mod groupSize (or groupSize
when groupSize divides L), and an empty source produces zero groups. -/
theorem c2_pack_group_shape (n : ℕ) (hn : 0 < n) (s : List α) :
    pack (n : ℚ) = .ok (n : ℚ) ∧
    (packRun (n : ℚ) [] s).length = (s.length + n - 1) / n ∧
    (packRun (n : ℚ) [] s).dropLast.map List.length =
      List.replicate ((packRun (n : ℚ) [] s).dropLast.length) n ∧
    ((packRun (n : ℚ) [] s).getLast?).map List.length =
      (if s.length = 0 then none else some (if n ∣ s.length then n else s.length % n)) ∧
    (packRun (n : ℚ) [] s).flatten = s ∧
    packRun (n : ℚ) [] ([] : List α) = [] := by
  have hpk := packRun_nil_buffer_eq_chunks hn s
  refine ⟨pack_pos_ok hn, ?_, ?_, ?_, ?_, ?_⟩
  · rw [hpk]; exact chunks_length hn s
  · rw [hpk]
    have := List.eq_replicate_of_mem (l := (chunks n s).dropLast.map List.length) (a := n) ?mem
    · rw [this, List.length_map]
    case mem =>
      intro b hb
      obtain ⟨g, hg, rfl⟩ := List.mem_map.mp hb
      exact chunks_dropLast_length hn s g hg
  · rw [hpk]
    cases hgl : (chunks n s).getLast? with
    | none =>
      cases s with
      | nil => simp
      | cons a as =>
        have := List.getLast?_eq_getLast (chunks n (a :: as)) (chunks_ne_nil (by simp))
        rw [hgl] at this
        cases this
    | some g =>
      have hs : s ≠ [] := by
        rintro rfl
        simp [chunks] at hgl
      rw [Option.map_some', if_neg (by simp [hs])]
      exact congrArg some (chunks_getLast_length hn s g hgl)
  · rw [hpk, ← packRun_nil_buffer_eq_chunks hn s]
    simpa using packRun_flatten (n : ℚ) [] s
  · simp [packRun]

/-- Witness for C2 at groupSize = 2 and S = [1, 2, 3, 4, 5]. -/
theorem c2_pack_group_shape_witness : 0 < 2 ∧
    (pack ((2 : ℕ) : ℚ) = .ok ((2 : ℕ) : ℚ) ∧
      (packRun ((2 : ℕ) : ℚ) [] [1, 2, 3, 4, 5]).length = ([1, 2, 3, 4, 5].length + 2 - 1) / 2 ∧
      (packRun ((2 : ℕ) : ℚ) [] [1, 2, 3, 4, 5]).dropLast.map List.length =
        List.replicate ((packRun ((2 : ℕ) : ℚ) [] [1, 2, 3, 4, 5]).dropLast.length) 2 ∧
      ((packRun ((2 : ℕ) : ℚ) [] [1, 2, 3, 4, 5]).getLast?).map List.length =
        (if ([1, 2, 3, 4, 5] : List ℕ).length = 0 then none
          else some (if 2 ∣ ([1, 2, 3, 4, 5] : List ℕ).length then 2
            else ([1, 2, 3, 4, 5] : List ℕ).length % 2)) ∧
      (packRun ((2 : ℕ) : ℚ) [] [1, 2, 3, 4, 5]).flatten = [1, 2, 3, 4, 5] ∧
      packRun ((2 : ℕ) : ℚ) [] ([] : List ℕ) = []) :=
  ⟨by decide, c2_pack_group_shape 2 (by decide) [1, 2, 3, 4, 5]⟩


theorem takeRun_eq (n : ℕ) (s : List α) :
    takeRun n s = (s.take n, s.drop n, if n ≤ s.length then n else s.length + 1) := by
  induction n generalizing s with
  | zero => simp [takeRun]
  | succ m ih =>
    cases s with
    | nil => simp [takeRun]
    | cons x xs =>
      have hp : (if m ≤ xs.length then m else xs.length + 1) + 1
          = if m + 1 ≤ xs.length + 1 then m + 1 else xs.length + 1 + 1 := by
        split_ifs <;> omega
      simp [takeRun, ih, hp]

theorem takeLastLoop_eq (n : ℕ) :
    ∀ (s results : List α), results.length ≤ n →
      takeLastLoop n results s = (results ++ s).drop ((results ++ s).length - n) := by
  intro s
  induction s with
  | nil =>
    intro results h
    have h0 : results.length - n = 0 := by omega
    simp [takeLastLoop, h0]
  | cons x xs ih =>
    intro results h
    rw [show results ++ x :: xs = (results ++ [x]) ++ xs by simp]
    simp only [takeLastLoop]
    split
    · next hlen =>
      have hr : (results ++ [x]).length = n + 1 := by
        simp only [List.length_append, List.length_cons, List.length_nil] at hlen ⊢
        omega
      rcases hu : results ++ [x] with _ | ⟨y, u⟩
      · simp at hu
      · rw [hu] at hr
        simp only [List.length_cons] at hr
        simp only [List.tail_cons]
        rw [ih u (by omega)]
        simp only [List.cons_append, List.length_cons, List.length_append]
        have e1 : u.length + xs.length - n = xs.length := by omega
        have e2 : u.length + xs.length + 1 - n = xs.length + 1 := by omega
        rw [e1, e2, List.drop_succ_cons]
    · next hlen =>
      have hr : (results ++ [x]).length ≤ n := by
        simp only [List.length_append, List.length_cons, List.length_nil] at hlen ⊢
        omega
      rw [ih (results ++ [x]) hr]

theorem takeLastRun_eq_drop (n : ℕ) (s : List α) :
    takeLastRun n s = s.drop (s.length - n) := by
  simpa [takeLastRun] using takeLastLoop_eq n s [] (by simp)

theorem skipRun_eq_drop (n : ℕ) (s : List α) : skipRun n s = s.drop n := by
  induction n generalizing s with
  | zero => simp [skipRun]
  | succ m ih =>
    cases s with
    | nil => simp [skipRun]
    | cons x xs => simp [skipRun, ih]

theorem filterRun_enumFrom (p : α → ℕ → Bool) :
    ∀ (s : List α) (i : ℕ),
      filterRun p i s =
        (((s.enumFrom i).filter fun q => p q.2 q.1).map Prod.snd,
          (s.enumFrom i).map fun q => (q.2, q.1)) := by
  intro s
  induction s with
  | nil => intro i; simp [filterRun]
  | cons x xs ih =>
    intro i
    simp only [filterRun, ih, List.enumFrom, List.filter_cons, List.map_cons]
    by_cases hp : p x i <;> simp [hp]

/-- C3 counterexample: the claim fails at n = 0 on the one-item source [1].
The code returns the same Stream object for take(0), so fully consuming the
returned stream yields [1], not the first min(0, 1) = 0 items the claim
predicts. -/
theorem c3_take_zero_counterexample :
    take (0 : ℤ) = .ok TakeResult.sameStream ∧
    takeCollect TakeResult.sameStream [(1 : ℕ)] = [1] ∧
    ([1] : List ℕ) ≠ [] := ⟨rfl, rfl, by decide⟩

/-- C3 amended: for every positive integer n, take(n) builds a new stage
that emits exactly the first min(n, L) items in order, leaves the upstream
positioned at item n (exhausted when n >= L), and issues exactly n upstream
pulls when n <= L (no further pull once n items are emitted) and L + 1
pulls (the final one observing exhaustion) otherwise. -/
theorem c3_take_amended (n : ℕ) (hn : 0 < n) (s : List α) :
    take (n : ℤ) = .ok (TakeResult.newStage n) ∧
    takeRun n s = (s.take n, s.drop n, if n ≤ s.length then n else s.length + 1) := by
  refine ⟨?_, takeRun_eq n s⟩
  rw [take, if_neg (by omega), if_neg (by omega)]
  simp

/-- Witness for the amended C3 at n = 2 and S = [1, 2, 3]. -/
theorem c3_take_amended_witness : 0 < 2 ∧
    (take ((2 : ℕ) : ℤ) = .ok (TakeResult.newStage 2) ∧
      takeRun 2 [1, 2, 3] = ([1, 2, 3].take 2, [1, 2, 3].drop 2,
        if 2 ≤ [1, 2, 3].length then 2 else [1, 2, 3].length + 1)) :=
  ⟨by decide, c3_take_amended 2 (by decide) [1, 2, 3]⟩

/-- C4: for every positive integer n, takeLast(n) is accepted at call time
and, after consuming the whole upstream, emits exactly the final
min(n, L) items in their original relative order (the suffix of the source);
on an already-exhausted (empty) stream it emits zero items. The window loop
runs to upstream exhaustion before the first emission by construction. -/
theorem c4_takeLast_window (n : ℕ) (hn : 0 < n) (s : List α) :
    takeLast (n : ℤ) = .ok n ∧
    takeLastRun n s = s.drop (s.length - n) ∧
    (takeLastRun n s).length = min n s.length ∧
    takeLastRun n ([] : List α) = [] := by
  refine ⟨?_, takeLastRun_eq_drop n s, ?_, rfl⟩
  · rw [takeLast, if_neg (by omega)]
    simp
  · rw [takeLastRun_eq_drop]
    simp only [List.length_drop]
    omega

/-- Witness for C4 at n = 2 and S = [1, 2, 3]. -/
theorem c4_takeLast_window_witness : 0 < 2 ∧
    (takeLast ((2 : ℕ) : ℤ) = .ok 2 ∧
      takeLastRun 2 [1, 2, 3] = [1, 2, 3].drop ([1, 2, 3].length - 2) ∧
      (takeLastRun 2 [1, 2, 3]).length = min 2 [1, 2, 3].length ∧
      takeLastRun 2 ([] : List ℕ) = []) :=
  ⟨by decide, c4_takeLast_window 2 (by decide) [1, 2, 3]⟩

/-- C7: take(0) returns the very same Stream object (TakeResult.sameStream,
the code path `if (n === 0) return self`), not a new wrapping stage; the
call performs no pull (the constructor never touches the upstream), so the
upstream position is unchanged: consuming the returned stream still yields
every remaining item. -/
theorem c7_take_zero_same_stream (s : List α) :
    take (0 : ℤ) = .ok TakeResult.sameStream ∧
    takeCollect TakeResult.sameStream s = s := ⟨rfl, rfl⟩

/-- C8: filter(predicate) calls the predicate exactly once per upstream
item, with a zero-based index that increments for every observed item
(including rejected ones), and emits exactly the items on which the
predicate is truthy, preserving their relative source order. -/
theorem c8_filter_index_and_selection (p : α → ℕ → Bool) (s : List α) :
    filterRun p 0 s =
      (((s.enum.filter fun q => p q.2 q.1).map Prod.snd),
        s.enum.map fun q => (q.2, q.1)) :=
  filterRun_enumFrom p s 0

/-- C9: fully consuming skip(a) composed with skip(b) yields the same
sequence as skip(a + b) on the same source (skip fuses additively). -/
theorem c9_skip_skip_fuses (a b : ℕ) (s : List α) :
    skipRun b (skipRun a s) = skipRun (a + b) s := by
  simp [skipRun_eq_drop, List.drop_drop]


theorem repackSlices_eq (n : ℕ) (buffer : List α) :
    repackSlices n buffer =
      if 0 < n ∧ n ≤ buffer.length then
        ((buffer.take n) :: (repackSlices n (buffer.drop n)).1, (repackSlices n (buffer.drop n)).2)
      else ([], buffer) := by
  rw [repackSlices]
  split <;> rfl

theorem repackSlices_leftover {n : ℕ} (hn : 0 < n) (buffer : List α) :
    (repackSlices n buffer).2.length < n := by
  induction buffer using repackSlices.induct n with
  | case1 b hb ih =>
    rw [repackSlices_eq n b, if_pos hb]
    exact ih
  | case2 b hb =>
    rw [repackSlices_eq n b, if_neg hb]
    simp only
    omega

theorem repackSlices_append {n : ℕ} (hn : 0 < n) (xs ys : List α) :
    repackSlices n (xs ++ ys) =
      ((repackSlices n xs).1 ++ (repackSlices n ((repackSlices n xs).2 ++ ys)).1,
        (repackSlices n ((repackSlices n xs).2 ++ ys)).2) := by
  induction xs using repackSlices.induct n with
  | case1 b hb ih =>
    have h2 : n ≤ (b ++ ys).length := by simp only [List.length_append]; omega
    rw [repackSlices_eq n (b ++ ys), if_pos ⟨hn, h2⟩,
      List.take_append_of_le_length hb.2, List.drop_append_of_le_length hb.2, ih,
      repackSlices_eq n b, if_pos hb]
    simp
  | case2 b hb =>
    rw [repackSlices_eq n b, if_neg hb]
    simp

theorem repackLoop_map_arr {n : ℕ} (hn : 0 < n) :
    ∀ (pages : List (List α)) (buffer : List α), buffer.length < n →
      repackLoop n buffer (pages.map Item.arr) =
        ((repackSlices n (buffer ++ pages.flatten)).1 ++
          (if 0 < (repackSlices n (buffer ++ pages.flatten)).2.length
            then [(repackSlices n (buffer ++ pages.flatten)).2] else []),
          none) := by
  intro pages
  induction pages with
  | nil =>
    intro buffer hb
    rw [List.map_nil]
    simp only [repackLoop]
    rw [List.flatten_nil, List.append_nil, repackSlices_eq n buffer,
      if_neg (by omega : ¬(0 < n ∧ n ≤ buffer.length))]
    simp
  | cons page pages ih =>
    intro buffer hb
    simp only [List.map_cons, repackLoop]
    rw [ih _ (repackSlices_leftover hn (buffer ++ page))]
    rw [List.flatten_cons,
      show buffer ++ (page ++ pages.flatten) = (buffer ++ page) ++ pages.flatten by simp,
      repackSlices_append hn (buffer ++ page) pages.flatten]
    simp

theorem repackLoop_shape_error {n : ℕ} (hn : 0 < n) :
    ∀ (pages : List (List α)) (buffer : List α) (rest : List (Item α)), buffer.length < n →
      repackLoop n buffer (pages.map Item.arr ++ Item.nonArr :: rest) =
        ((repackSlices n (buffer ++ pages.flatten)).1,
          some "Input async generator must yield arrays for repack.") := by
  intro pages
  induction pages with
  | nil =>
    intro buffer rest hb
    simp only [List.map_nil, List.nil_append, repackLoop]
    rw [List.flatten_nil, List.append_nil, repackSlices_eq n buffer,
      if_neg (by omega : ¬(0 < n ∧ n ≤ buffer.length))]
  | cons page pages ih =>
    intro buffer rest hb
    simp only [List.map_cons, List.cons_append, repackLoop, List.append_eq]
    rw [ih _ rest (repackSlices_leftover hn (buffer ++ page))]
    rw [List.flatten_cons,
      show buffer ++ (page ++ pages.flatten) = (buffer ++ page) ++ pages.flatten by simp,
      repackSlices_append hn (buffer ++ page) pages.flatten]

theorem flatRun_shape_error (pages : List (List α)) (rest : List (Item α)) :
    flatRun (pages.map Item.arr ++ Item.nonArr :: rest) =
      (pages.flatten, some "Input async generator must yield arrays for flattening.") := by
  induction pages with
  | nil => simp [flatRun]
  | cons p ps ih => simp [flatRun, ih]

theorem repack_pos_ok {n : ℕ} (hn : 0 < n) : repack (n : ℚ) = .ok (n : ℚ) := by
  simp [repack, not_le.mpr (show (0 : ℚ) < n by exact_mod_cast hn)]

/-- C6: when the k-th upstream item is the first non-array value (here the
upstream is k all-array pages followed by a non-array item and an arbitrary
tail), repack and flat emit downstream exactly the values derived from items
0..k-1 — the same values a well-shaped prefix produces before exhaustion —
and raise their TypeError at the pull that observes item k, never earlier
and not at stage construction (the constructor succeeds); everything emitted
before that pull stays valid. -/
theorem c6_shape_error_mid_stream (n : ℕ) (hn : 0 < n) (pages : List (List α)) (rest : List (Item α)) :
    repack (n : ℚ) = .ok (n : ℚ) ∧
    flatRun (pages.map Item.arr ++ Item.nonArr :: rest) =
      (pages.flatten, some "Input async generator must yield arrays for flattening.") ∧
    flatRun (pages.map Item.arr) = (pages.flatten, none) ∧
    repackLoop n [] (pages.map Item.arr ++ Item.nonArr :: rest) =
      ((repackSlices n pages.flatten).1,
        some "Input async generator must yield arrays for repack.") ∧
    repackLoop n [] (pages.map Item.arr) =
      ((repackSlices n pages.flatten).1 ++
        (if 0 < (repackSlices n pages.flatten).2.length
          then [(repackSlices n pages.flatten).2] else []),
        none) := by
  refine ⟨repack_pos_ok hn, flatRun_shape_error pages rest, flatRun_map_arr pages, ?_, ?_⟩
  · simpa using repackLoop_shape_error hn pages [] rest (by simpa using hn)
  · simpa using repackLoop_map_arr hn pages [] (by simpa using hn)

/-- Witness for C6 at n = 2, pages = [[1, 2, 3]], tail = [nonArr]. -/
theorem c6_shape_error_mid_stream_witness : 0 < 2 ∧
    (repack ((2 : ℕ) : ℚ) = .ok ((2 : ℕ) : ℚ) ∧
      flatRun ([[1, 2, 3]].map Item.arr ++ Item.nonArr :: [Item.nonArr]) =
        ([[1, 2, 3]].flatten, some "Input async generator must yield arrays for flattening.") ∧
      flatRun (([[1, 2, 3]] : List (List ℕ)).map Item.arr) = ([[1, 2, 3]].flatten, none) ∧
      repackLoop 2 [] ([[1, 2, 3]].map Item.arr ++ Item.nonArr :: [Item.nonArr]) =
        ((repackSlices 2 [[1, 2, 3]].flatten).1,
          some "Input async generator must yield arrays for repack.") ∧
      repackLoop 2 [] (([[1, 2, 3]] : List (List ℕ)).map Item.arr) =
        ((repackSlices 2 [[1, 2, 3]].flatten).1 ++
          (if 0 < (repackSlices 2 ([[1, 2, 3]] : List (List ℕ)).flatten).2.length
            then [(repackSlices 2 ([[1, 2, 3]] : List (List ℕ)).flatten).2] else []),
          none)) :=
  ⟨by decide, c6_shape_error_mid_stream 2 (by decide) [[1, 2, 3]] [Item.nonArr]⟩

/-- C5 counterexample: the claim fails for pack at groupSize = 5/2, which is
not a positive integer (denominator 2), yet the call is accepted: the code
only checks `packageSize <= 0`, so no range error is raised. -/
theorem c5_validation_counterexample :
    pack ((5 : ℚ) / 2) = .ok ((5 : ℚ) / 2) ∧ ((5 : ℚ) / 2).den ≠ 1 := by
  constructor
  · rw [pack, if_neg (by norm_num)]
  · norm_num

/-- C5 amended: the calls rejected synchronously at construction (before any
pull; the constructors never touch the source) are exactly: pack with a
non-positive groupSize, skip and take with negative n, and takeLast with
non-positive n; every other argument is accepted, including non-integer
positive groupSize for pack. -/
theorem c5_validation_amended (q : ℚ) (n : ℤ) :
    (pack q = .error "packageSize must be a positive integer." ↔ q ≤ 0) ∧
    (skip n = .error "n must be a non-negative integer." ↔ n < 0) ∧
    (take n = .error "n must be a non-negative integer." ↔ n < 0) ∧
    (takeLast n = .error "n must be a positive integer." ↔ n ≤ 0) := by
  refine ⟨?_, ?_, ?_, ?_⟩
  · rw [pack]; split_ifs with h <;> simp [h]
  · rw [skip]; split_ifs with h <;> simp [h]
  · rw [take]; split_ifs <;> simp [*]
  · rw [takeLast]; split_ifs with h <;> simp [h]

theorem packRun_nonint_buffer {q : ℚ} (hq : ∀ m : ℕ, (m : ℚ) ≠ q) :
    ∀ (s buffer : List α), buffer ≠ [] → packRun q buffer s = [buffer ++ s] := by
  intro s
  induction s with
  | nil =>
    intro buffer hb
    simp only [packRun]
    rw [if_pos (List.length_pos.mpr hb)]
    simp
  | cons x xs ih =>
    intro buffer hb
    simp only [packRun]
    rw [if_neg (hq _), ih (buffer ++ [x]) (by simp)]
    simp

/-- C10: for every non-integer packageSize strictly greater than 0 and every
non-empty finite source, pack raises no validation error, and since the
integer buffer length never equals the non-integer target the stage buffers
the whole source and emits it as one single group, in order, at
exhaustion. -/
theorem c10_pack_noninteger_single_group (q : ℚ) (hq : 0 < q) (hden : q.den ≠ 1) (s : List α) (hs : s ≠ []) :
    pack q = .ok q ∧ packRun q [] s = [s] := by
  have hnotnat : ∀ m : ℕ, (m : ℚ) ≠ q := by
    intro m hm
    exact hden (by rw [← hm, Rat.den_natCast])
  refine ⟨?_, ?_⟩
  · rw [pack, if_neg (not_le.mpr hq)]
  · cases s with
    | nil => exact absurd rfl hs
    | cons x xs =>
      simp only [packRun]
      rw [if_neg (hnotnat _), packRun_nonint_buffer hnotnat xs ([] ++ [x]) (by simp)]
      simp

/-- Witness for C10 at packageSize = 5/2 and S = [1, 2, 3]. -/
theorem c10_pack_noninteger_single_group_witness :
    0 < (5 : ℚ) / 2 ∧ ((5 : ℚ) / 2).den ≠ 1 ∧ ([1, 2, 3] : List ℕ) ≠ [] ∧
    (pack ((5 : ℚ) / 2) = .ok ((5 : ℚ) / 2) ∧
      packRun ((5 : ℚ) / 2) [] [1, 2, 3] = [[1, 2, 3]]) :=
  ⟨by norm_num, by norm_num, by decide,
    c10_pack_noninteger_single_group ((5 : ℚ) / 2) (by norm_num) (by norm_num) [1, 2, 3] (by decide)⟩

end AsyncStream
